/-
Verification of the kriptofs passthrough filesystem daemon
(src/daemon/src/main.rs).

The daemon exposes a real directory tree through FUSE.  Its only state is
an inode table: a map from protocol inode numbers to real paths plus an
allocation counter, both guarded by mutexes (every mutator first takes the
map lock, so the table behaves as a sequentially consistent object; we
model it as explicit state passing).  The real filesystem is modelled as
an oracle (RealFS) supplying stat results, file contents and directory
listings; transient seek/read outcomes of the read path are extra booleans.
Machine integers are modelled as Nat; the only cast where truncation can
matter is mode() as u16, kept as % 65536 (and the u64-to-u32 casts of
nlink, rdev, blksize, kept as % 4294967296).  Times are nanoseconds since
the epoch, with UNIX_EPOCH = 0 and the current time passed in as an
argument.
-/
import Mathlib

namespace KriptoFS

/-- Absolute real-filesystem paths, modelled abstractly as strings. -/
abbrev FsPath := String

/-- The file type reported by a stat call (std::fs::Metadata::file_type).
other covers sockets, fifos, devices and anything else. -/
inductive MetaFileType
  | dir
  | regular
  | symlink
  | other
deriving DecidableEq

/-- Model of std::fs::Metadata for one path: the fields the daemon reads.
accessed and modified are Option because the corresponding std calls
return Result and the daemon falls back to UNIX_EPOCH on error. -/
structure Metadata where
  fileType : MetaFileType
  len : Nat
  blocks : Nat
  mode : Nat
  nlink : Nat
  uid : Nat
  gid : Nat
  rdev : Nat
  blksize : Nat
  accessed : Option Nat
  modified : Option Nat
deriving DecidableEq

/-- Metadata::is_dir. -/
def Metadata.is_dir (m : Metadata) : Bool := m.fileType = MetaFileType.dir

/-- Metadata::is_file. -/
def Metadata.is_file (m : Metadata) : Bool := m.fileType = MetaFileType.regular

/-- Metadata::is_symlink. -/
def Metadata.is_symlink (m : Metadata) : Bool := m.fileType = MetaFileType.symlink

/-- The fuser FileType values the daemon can mention. -/
inductive FileType
  | Directory
  | RegularFile
  | Symlink
deriving DecidableEq

/-- Model of fuser::FileAttr with the fields the daemon fills in. -/
structure FileAttr where
  ino : Nat
  size : Nat
  blocks : Nat
  atime : Nat
  mtime : Nat
  ctime : Nat
  crtime : Nat
  kind : FileType
  perm : Nat
  nlink : Nat
  uid : Nat
  gid : Nat
  rdev : Nat
  flags : Nat
  blksize : Nat
deriving DecidableEq

/-- The protocol error codes the daemon replies with:
ENOENT, EIO and EACCES in the spec's taxonomy. -/
inductive FsError
  | NotFound
  | IOError
  | PermissionDenied
deriving DecidableEq

/-- The PassthroughFS state: the source root, the inode map (inode number
to real path, modelled as an association list; HashMap iteration order is
irrelevant because the path column stays duplicate-free) and the
allocation counter next_inode. -/
structure FSState where
  source : FsPath
  inodeMap : List (Nat × FsPath)
  nextInode : Nat
deriving DecidableEq

/-- PassthroughFS::new: the table starts with inode 1 mapped to the source
root and the counter at 2. -/
def PassthroughFS.new (source : FsPath) : FSState :=
  { source := source, inodeMap := [(1, source)], nextInode := 2 }

/-- The linear scan of get_inode: the first inode whose stored path equals
the argument. -/
def findInode : List (Nat × FsPath) → FsPath → Option Nat
  | [], _ => none
  | (ino, p) :: rest, path => if p = path then some ino else findInode rest path

/-- Key lookup in the inode map (HashMap::get). -/
def lookupIno : List (Nat × FsPath) → Nat → Option FsPath
  | [], _ => none
  | (ino, p) :: rest, i => if ino = i then some p else lookupIno rest i

/-- PassthroughFS::get_inode: return the existing inode of the path if the
scan finds one, otherwise allocate the counter value, bump the counter and
insert the new entry. -/
def get_inode (s : FSState) (path : FsPath) : Nat × FSState :=
  match findInode s.inodeMap path with
  | some ino => (ino, s)
  | none =>
    (s.nextInode,
      { s with inodeMap := (s.nextInode, path) :: s.inodeMap,
               nextInode := s.nextInode + 1 })

/-- PassthroughFS::get_path: pure lookup of an inode's path. -/
def get_path (s : FSState) (ino : Nat) : Option FsPath :=
  lookupIno s.inodeMap ino

/-- A directory entry as produced by fs::read_dir: its file name, its full
path (parent joined with the name) and the result of entry.metadata(),
which is None when that stat call fails. -/
structure DirEntry where
  name : String
  path : FsPath
  metadata : Option Metadata
deriving DecidableEq

/-- The real-filesystem oracle: metadata is fs::metadata (which follows
symbolic links), openFile is File::open for reading (None when the open
fails), with the full byte content of the opened file on success, and
readDir is fs::read_dir (None when reading the directory fails). -/
structure RealFS where
  metadata : FsPath → Option Metadata
  openFile : FsPath → Option (List Nat)
  readDir : FsPath → Option (List DirEntry)

/-- The kind chain of get_file_attr: directory, regular file, symlink,
anything else normalized to regular file. -/
def attrKind (m : Metadata) : FileType :=
  if m.is_dir then FileType.Directory
  else if m.is_file then FileType.RegularFile
  else if m.is_symlink then FileType.Symlink
  else FileType.RegularFile

/-- PassthroughFS::get_file_attr: stat the path; on failure return ENOENT
without touching the table; on success allocate or resolve the inode and
build the attribute record.  perm is mode() as u16, hence % 65536 with no
permission mask; nlink, rdev and blksize are u64 values cast to u32. -/
def get_file_attr (fs : RealFS) (now : Nat) (s : FSState) (path : FsPath) :
    Except FsError FileAttr × FSState :=
  match fs.metadata path with
  | some m =>
    let r := get_inode s path
    (Except.ok
      { ino := r.1
        size := m.len
        blocks := m.blocks
        atime := m.accessed.getD 0
        mtime := m.modified.getD 0
        ctime := now
        crtime := 0
        kind := attrKind m
        perm := m.mode % 65536
        nlink := m.nlink % 4294967296
        uid := m.uid
        gid := m.gid
        rdev := m.rdev % 4294967296
        flags := 0
        blksize := m.blksize % 4294967296 }, r.2)
  | none => (Except.error FsError.NotFound, s)

/-- PathBuf::join for the lookup operation. -/
def pathJoin (parent : FsPath) (name : String) : FsPath :=
  parent ++ "/" ++ name

/-- Filesystem::lookup: resolve the parent inode (ENOENT when absent),
join the child name, and translate attributes; the reply carries
generation 0. -/
def lookup (fs : RealFS) (now : Nat) (s : FSState) (parent : Nat)
    (name : String) : Except FsError (FileAttr × Nat) × FSState :=
  match get_path s parent with
  | none => (Except.error FsError.NotFound, s)
  | some parentPath =>
    let r := get_file_attr fs now s (pathJoin parentPath name)
    match r.1 with
    | Except.ok attr => (Except.ok (attr, 0), r.2)
    | Except.error e => (Except.error e, r.2)

/-- Filesystem::getattr: resolve the inode (ENOENT when absent) and
translate attributes. -/
def getattr (fs : RealFS) (now : Nat) (s : FSState) (ino : Nat) :
    Except FsError FileAttr × FSState :=
  match get_path s ino with
  | none => (Except.error FsError.NotFound, s)
  | some path => get_file_attr fs now s path

/-- Filesystem::read: resolve the inode (ENOENT), open the file fresh
(ENOENT on failure), seek to the offset (EIO on failure), read into a
buffer of the requested size and truncate to the bytes obtained (EIO on
failure).  seekOk and readOk are the outcomes of the seek and read
syscalls; on a regular file the single read call returns the bytes of the
content from the offset, at most the requested size.  The table is never
touched. -/
def read (fs : RealFS) (s : FSState) (ino : Nat) (offset : Nat)
    (size : Nat) (seekOk : Bool) (readOk : Bool) :
    Except FsError (List Nat) × FSState :=
  match get_path s ino with
  | none => (Except.error FsError.NotFound, s)
  | some path =>
    match fs.openFile path with
    | none => (Except.error FsError.NotFound, s)
    | some content =>
      if seekOk = false then (Except.error FsError.IOError, s)
      else if readOk = false then (Except.error FsError.IOError, s)
      else (Except.ok ((content.drop offset).take size), s)

/-- One emitted directory entry: the arguments of reply.add, namely the
child inode, the offset passed to add (the offset of the NEXT entry: the
entry's own conceptual offset plus one), the kind and the name. -/
structure OutEntry where
  ino : Nat
  nextOffset : Nat
  kind : FileType
  name : String
deriving DecidableEq

/-- ReplyDirectory::add modelled with a capacity counted in entries: when
the buffer still has room the entry is appended and false (not full) is
returned; otherwise the entry is dropped and true (full) is returned. -/
def addEntry (buf : List OutEntry) (cap : Nat) (e : OutEntry) :
    List OutEntry × Bool :=
  if buf.length < cap then (buf ++ [e], false) else (buf, true)

/-- The kind used for real children in readdir: directory or regular file
only (symlinks are not distinguished in listings). -/
def entryKind (m : Metadata) : FileType :=
  if m.is_dir then FileType.Directory else FileType.RegularFile

/-- The loop of readdir over the real children, starting at conceptual
offset c: an entry is considered only when the resume offset r is at most
its conceptual offset; an entry whose metadata call failed is silently
skipped; otherwise its inode is resolved or allocated, it is offered to
the reply buffer with next-offset c + 1, and the loop breaks when the
buffer reports itself full. -/
def readdirLoop (r cap : Nat) :
    List DirEntry → Nat → List OutEntry → FSState → List OutEntry × FSState
  | [], _, buf, s => (buf, s)
  | e :: rest, c, buf, s =>
    if r ≤ c then
      match e.metadata with
      | some m =>
        let gi := get_inode s e.path
        let ae := addEntry buf cap ⟨gi.1, c + 1, entryKind m, e.name⟩
        if ae.2 then (ae.1, gi.2)
        else readdirLoop r cap rest (c + 1) ae.1 gi.2
      | none => readdirLoop r cap rest (c + 1) buf s
    else readdirLoop r cap rest (c + 1) buf s

/-- The synthetic part of the readdir reply: dot at conceptual offset 0
(next-offset 1) and dot-dot at conceptual offset 1 (next-offset 2), each
offered to the buffer when the resume offset permits, with the fullness
flag ignored exactly as in the source. -/
def dotEntries (ino r cap : Nat) : List OutEntry :=
  let b0 := if r ≤ 0 then (addEntry [] cap ⟨ino, 1, FileType.Directory, "."⟩).1
            else []
  let b1 := if r ≤ 1 then (addEntry b0 cap ⟨ino, 2, FileType.Directory, ".."⟩).1
            else b0
  b1

/-- Filesystem::readdir: resolve the inode (ENOENT), read the real
directory (ENOENT on failure), emit the synthetic dot entries and then the
real children starting at conceptual offset 2, and reply ok with whatever
was accepted. -/
def readdir (fs : RealFS) (s : FSState) (ino : Nat) (r : Nat) (cap : Nat) :
    Except FsError (List OutEntry) × FSState :=
  match get_path s ino with
  | none => (Except.error FsError.NotFound, s)
  | some path =>
    match fs.readDir path with
    | none => (Except.error FsError.NotFound, s)
    | some entries =>
      let lr := readdirLoop r cap entries 2 (dotEntries ino r cap) s
      (Except.ok lr.1, lr.2)

/-- Filesystem::open: the daemon replies opened(0, 0) unconditionally,
whatever the inode and the flags. -/
def open_op (s : FSState) (_ino : Nat) (_flags : Int) :
    Except FsError (Nat × Nat) × FSState :=
  (Except.ok (0, 0), s)

/-- The real children eligible for emission, numbered from conceptual
offset c: those at offset at least r whose metadata call succeeded, in
order.  Mirrors the skipping structure of readdirLoop for its
characterization. -/
def eligibleFrom (r : Nat) : Nat → List DirEntry → List (Nat × DirEntry)
  | _, [] => []
  | c, e :: rest =>
    if r ≤ c then
      match e.metadata with
      | some _ => (c, e) :: eligibleFrom r (c + 1) rest
      | none => eligibleFrom r (c + 1) rest
    else eligibleFrom r (c + 1) rest

/-- Emission of a list of eligible entries with the inode table threaded
through get_inode, ignoring buffer capacity. -/
def emitAll (s : FSState) : List (Nat × DirEntry) → List OutEntry
  | [] => []
  | (c, e) :: rest =>
    match e.metadata with
    | some m =>
      let gi := get_inode s e.path
      ⟨gi.1, c + 1, entryKind m, e.name⟩ :: emitAll gi.2 rest
    | none => emitAll s rest

/-- State extension: every table entry survives and the counter does not
decrease. -/
def Extends (s t : FSState) : Prop :=
  (∀ pr ∈ s.inodeMap, pr ∈ t.inodeMap) ∧ s.nextInode ≤ t.nextInode

/-- The inode-table invariant: the root entry is present, inode numbers
are duplicate-free, paths are duplicate-free, the counter is at least 2,
and every entry is either the root entry or has an inode in the interval
from 2 up to the counter. -/
def Inv (src : FsPath) (s : FSState) : Prop :=
  (1, src) ∈ s.inodeMap ∧
  (s.inodeMap.map Prod.fst).Nodup ∧
  (s.inodeMap.map Prod.snd).Nodup ∧
  2 ≤ s.nextInode ∧
  ∀ pr ∈ s.inodeMap, (pr.1 = 1 ∧ pr.2 = src) ∨ (2 ≤ pr.1 ∧ pr.1 < s.nextInode)

/-- One dispatcher operation, with arbitrary oracle inputs: the state
transitions the daemon can perform.  read and open never mutate the table,
so their resulting state is the second component of the model, which is
the input state. -/
inductive Step : FSState → FSState → Prop
  | lookupStep (fs : RealFS) (now : Nat) (s : FSState) (parent : Nat)
      (name : String) : Step s (lookup fs now s parent name).2
  | getattrStep (fs : RealFS) (now : Nat) (s : FSState) (ino : Nat) :
      Step s (getattr fs now s ino).2
  | readStep (fs : RealFS) (s : FSState) (ino offset size : Nat)
      (seekOk readOk : Bool) :
      Step s (read fs s ino offset size seekOk readOk).2
  | readdirStep (fs : RealFS) (s : FSState) (ino r cap : Nat) :
      Step s (readdir fs s ino r cap).2
  | openStep (s : FSState) (ino : Nat) (flags : Int) :
      Step s (open_op s ino flags).2
  | getInodeStep (s : FSState) (p : FsPath) : Step s (get_inode s p).2

/-- States reachable from a fresh mount of the given source root by any
sequence of operations. -/
inductive Reachable (source : FsPath) : FSState → Prop
  | init : Reachable source (PassthroughFS.new source)
  | step {s t : FSState} : Reachable source s → Step s t → Reachable source t

/-- Sample stat result: a regular file of five bytes with mode 0o100644
(S_IFREG plus rw-r--r--), as the kernel reports for an ordinary file. -/
def regularMode644 : Metadata :=
  { fileType := MetaFileType.regular
    len := 5
    blocks := 8
    mode := 33188
    nlink := 1
    uid := 1000
    gid := 1000
    rdev := 0
    blksize := 4096
    accessed := some 10
    modified := some 20 }

/-- Sample oracle: the source root is a directory holding one regular file
a.txt with content hello. -/
def sampleFS : RealFS :=
  { metadata := fun p => if p = "/src/a.txt" then some regularMode644 else none
    openFile := fun p =>
      if p = "/src/a.txt" then some [104, 101, 108, 108, 111] else none
    readDir := fun p =>
      if p = "/src" then some [⟨"a.txt", "/src/a.txt", some regularMode644⟩]
      else none }

/-- Oracle whose root directory holds one entry whose metadata call fails. -/
def badMetaFS : RealFS :=
  { metadata := fun _ => none
    openFile := fun _ => none
    readDir := fun p =>
      if p = "/src" then some [⟨"x", "/src/x", none⟩] else none }

/-- The table of a fresh mount of /src after a.txt received inode 2. -/
def stateA : FSState :=
  { source := "/src", inodeMap := [(2, "/src/a.txt"), (1, "/src")], nextInode := 3 }

/-- The attribute record the daemon builds for a.txt under sampleFS at
time 0: note the perm field holding the full mode 33188 = 0o100644. -/
def attrA : FileAttr :=
  ⟨2, 5, 8, 10, 20, 0, 0, FileType.RegularFile, 33188, 1, 1000, 1000, 0, 0, 4096⟩

/-- Oracle whose root directory exists but has no children at all. -/
def emptyDirFS : RealFS :=
  { metadata := fun _ => none
    openFile := fun _ => none
    readDir := fun p => if p = "/src" then some [] else none }

/-- The linear scan misses exactly when no entry stores the path. -/
theorem findInode_eq_none_iff (m : List (Nat × FsPath)) (p : FsPath) :
    findInode m p = none ↔ ∀ pr ∈ m, pr.2 ≠ p := by
  induction m with
  | nil => simp [findInode]
  | cons hd tl ih =>
    obtain ⟨i, q⟩ := hd
    by_cases hq : q = p
    · subst hq
      simp [findInode]
    · simp [findInode, hq, ih]

/-- A hit of the linear scan is a table entry. -/
theorem findInode_some_mem {m : List (Nat × FsPath)} {p : FsPath} {i : Nat}
    (h : findInode m p = some i) : (i, p) ∈ m := by
  induction m with
  | nil => simp [findInode] at h
  | cons hd tl ih =>
    obtain ⟨j, q⟩ := hd
    by_cases hq : q = p
    · subst hq
      simp [findInode] at h
      subst h
      exact List.mem_cons_self _ _
    · simp [findInode, hq] at h
      exact List.mem_cons_of_mem _ (ih h)

/-- With duplicate-free inode numbers, an inode determines its path. -/
theorem nodup_keys_unique {m : List (Nat × FsPath)}
    (h : (m.map Prod.fst).Nodup) {i : Nat} {p q : FsPath}
    (hp : (i, p) ∈ m) (hq : (i, q) ∈ m) : p = q := by
  induction m with
  | nil => cases hp
  | cons hd tl ih =>
    obtain ⟨j, x⟩ := hd
    simp only [List.map_cons, List.nodup_cons] at h
    rcases List.mem_cons.mp hp with hp1 | hp1 <;>
      rcases List.mem_cons.mp hq with hq1 | hq1
    · injection hp1 with h1 h2
      injection hq1 with h3 h4
      rw [h2, h4]
    · injection hp1 with h1 h2
      subst h1
      exact absurd (List.mem_map.mpr ⟨(i, q), hq1, rfl⟩) h.1
    · injection hq1 with h3 h4
      subst h3
      exact absurd (List.mem_map.mpr ⟨(i, p), hp1, rfl⟩) h.1
    · exact ih h.2 hp1 hq1

/-- get_inode records its own result in the resulting table. -/
theorem get_inode_self_mem (s : FSState) (p : FsPath) :
    ((get_inode s p).1, p) ∈ (get_inode s p).2.inodeMap := by
  unfold get_inode
  split
  · next i hf => simpa using findInode_some_mem hf
  · next hf => exact List.mem_cons_self _ _

/-- A second call of get_inode on the same path finds the entry the first
call produced: same inode, same state. -/
theorem get_inode_idem (s : FSState) (p : FsPath) :
    get_inode (get_inode s p).2 p = ((get_inode s p).1, (get_inode s p).2) := by
  cases hf : findInode s.inodeMap p with
  | some i => simp [get_inode, hf]
  | none => simp [get_inode, hf, findInode]

/-- get_inode only grows the table: old entries survive and the counter
does not decrease. -/
theorem get_inode_extends (s : FSState) (p : FsPath) :
    Extends s (get_inode s p).2 := by
  unfold get_inode
  split
  · exact ⟨fun pr hpr => hpr, le_refl _⟩
  · exact ⟨fun pr hpr => List.mem_cons_of_mem _ hpr, Nat.le_succ _⟩

theorem extends_refl (s : FSState) : Extends s s :=
  ⟨fun _ hpr => hpr, le_refl _⟩

theorem extends_trans {s t u : FSState} (h1 : Extends s t)
    (h2 : Extends t u) : Extends s u :=
  ⟨fun pr hpr => h2.1 pr (h1.1 pr hpr), le_trans h1.2 h2.2⟩

/-- get_inode preserves the inode-table invariant. -/
theorem get_inode_inv {src : FsPath} {s : FSState} (h : Inv src s)
    (p : FsPath) : Inv src (get_inode s p).2 := by
  obtain ⟨hroot, hkeys, hpaths, h2, hrange⟩ := h
  unfold get_inode
  split
  · exact ⟨hroot, hkeys, hpaths, h2, hrange⟩
  · next hf =>
    have hfresh : ∀ pr ∈ s.inodeMap, pr.2 ≠ p :=
      (findInode_eq_none_iff _ _).mp hf
    refine ⟨List.mem_cons_of_mem _ hroot, ?_, ?_, ?_, ?_⟩
    · simp only [List.map_cons]
      refine List.nodup_cons.mpr ⟨?_, hkeys⟩
      intro hmem
      obtain ⟨pr, hpr, hfst⟩ := List.mem_map.mp hmem
      rcases hrange pr hpr with ⟨h1, _⟩ | ⟨_, hlt⟩ <;> omega
    · simp only [List.map_cons]
      refine List.nodup_cons.mpr ⟨?_, hpaths⟩
      intro hmem
      obtain ⟨pr, hpr, hsnd⟩ := List.mem_map.mp hmem
      exact hfresh pr hpr hsnd
    · simp only []
      omega
    · intro pr hpr
      rcases List.mem_cons.mp hpr with hpr1 | hpr1
      · subst hpr1
        exact Or.inr ⟨h2, Nat.lt_succ_self _⟩
      · rcases hrange pr hpr1 with ⟨ha, hb⟩ | ⟨ha, hb⟩
        · exact Or.inl ⟨ha, hb⟩
        · exact Or.inr ⟨ha, Nat.lt_succ_of_lt hb⟩

/-- The invariant holds at mount time. -/
theorem inv_new (src : FsPath) : Inv src (PassthroughFS.new src) := by
  refine ⟨?_, ?_, ?_, ?_, ?_⟩
  · exact List.mem_singleton.mpr rfl
  · simp [PassthroughFS.new]
  · simp [PassthroughFS.new]
  · simp [PassthroughFS.new]
  · intro pr hpr
    simp only [PassthroughFS.new, List.mem_singleton] at hpr
    subst hpr
    exact Or.inl ⟨rfl, rfl⟩

/-- The state get_file_attr returns: unchanged on stat failure, the
get_inode state on success. -/
theorem get_file_attr_state (fs : RealFS) (now : Nat) (s : FSState)
    (path : FsPath) :
    (get_file_attr fs now s path).2 = s ∨
    (get_file_attr fs now s path).2 = (get_inode s path).2 := by
  cases h : fs.metadata path with
  | none => simp [get_file_attr, h]
  | some m => simp [get_file_attr, h]

/-- A stat failure inside get_file_attr leaves the table unchanged. -/
theorem get_file_attr_error_state {fs : RealFS} {now : Nat} {s : FSState}
    {path : FsPath} {e : FsError}
    (h : (get_file_attr fs now s path).1 = Except.error e) :
    (get_file_attr fs now s path).2 = s := by
  cases hm : fs.metadata path with
  | none => simp [get_file_attr, hm]
  | some m => simp [get_file_attr, hm] at h

theorem get_file_attr_extends (fs : RealFS) (now : Nat) (s : FSState)
    (path : FsPath) : Extends s (get_file_attr fs now s path).2 := by
  rcases get_file_attr_state fs now s path with h | h <;> rw [h]
  · exact extends_refl s
  · exact get_inode_extends s path

theorem get_file_attr_inv {src : FsPath} {s : FSState} (h : Inv src s)
    (fs : RealFS) (now : Nat) (path : FsPath) :
    Inv src (get_file_attr fs now s path).2 := by
  rcases get_file_attr_state fs now s path with heq | heq <;> rw [heq]
  · exact h
  · exact get_inode_inv h path

/-- The state lookup returns: unchanged on parent-resolution failure, the
get_file_attr state otherwise. -/
theorem lookup_state (fs : RealFS) (now : Nat) (s : FSState) (parent : Nat)
    (name : String) :
    (lookup fs now s parent name).2 = s ∨
    ∃ fp, (lookup fs now s parent name).2 = (get_file_attr fs now s fp).2 := by
  cases hp : get_path s parent with
  | none => simp [lookup, hp]
  | some pp =>
    refine Or.inr ⟨pathJoin pp name, ?_⟩
    cases hr : (get_file_attr fs now s (pathJoin pp name)).1 with
    | ok attr => simp [lookup, hp, hr]
    | error e => simp [lookup, hp, hr]

theorem lookup_extends (fs : RealFS) (now : Nat) (s : FSState)
    (parent : Nat) (name : String) :
    Extends s (lookup fs now s parent name).2 := by
  rcases lookup_state fs now s parent name with h | ⟨fp, h⟩ <;> rw [h]
  · exact extends_refl s
  · exact get_file_attr_extends fs now s fp

theorem lookup_inv {src : FsPath} {s : FSState} (h : Inv src s)
    (fs : RealFS) (now : Nat) (parent : Nat) (name : String) :
    Inv src (lookup fs now s parent name).2 := by
  rcases lookup_state fs now s parent name with heq | ⟨fp, heq⟩ <;> rw [heq]
  · exact h
  · exact get_file_attr_inv h fs now fp

/-- The state getattr returns. -/
theorem getattr_state (fs : RealFS) (now : Nat) (s : FSState) (ino : Nat) :
    (getattr fs now s ino).2 = s ∨
    ∃ fp, (getattr fs now s ino).2 = (get_file_attr fs now s fp).2 := by
  cases hp : get_path s ino with
  | none => simp [getattr, hp]
  | some p => exact Or.inr ⟨p, by simp [getattr, hp]⟩

theorem getattr_extends (fs : RealFS) (now : Nat) (s : FSState)
    (ino : Nat) : Extends s (getattr fs now s ino).2 := by
  rcases getattr_state fs now s ino with h | ⟨fp, h⟩ <;> rw [h]
  · exact extends_refl s
  · exact get_file_attr_extends fs now s fp

theorem getattr_inv {src : FsPath} {s : FSState} (h : Inv src s)
    (fs : RealFS) (now : Nat) (ino : Nat) :
    Inv src (getattr fs now s ino).2 := by
  rcases getattr_state fs now s ino with heq | ⟨fp, heq⟩ <;> rw [heq]
  · exact h
  · exact get_file_attr_inv h fs now fp

/-- read never mutates the table. -/
theorem read_state (fs : RealFS) (s : FSState) (ino offset size : Nat)
    (seekOk readOk : Bool) :
    (read fs s ino offset size seekOk readOk).2 = s := by
  cases hp : get_path s ino with
  | none => simp [read, hp]
  | some p =>
    cases ho : fs.openFile p with
    | none => simp [read, hp, ho]
    | some c =>
      cases seekOk <;> cases readOk <;> simp [read, hp, ho]

/-- The readdir loop only grows the table. -/
theorem readdirLoop_extends (r cap : Nat) (entries : List DirEntry) :
    ∀ (c : Nat) (buf : List OutEntry) (s : FSState),
      Extends s (readdirLoop r cap entries c buf s).2 := by
  induction entries with
  | nil => intro c buf s; exact extends_refl s
  | cons e rest ih =>
    intro c buf s
    by_cases hrc : r ≤ c
    · cases hm : e.metadata with
      | some m =>
        by_cases hfull : (addEntry buf cap ⟨(get_inode s e.path).1, c + 1,
            entryKind m, e.name⟩).2
        · simp only [readdirLoop, hrc, if_true, hm, hfull, if_pos]
          exact get_inode_extends s e.path
        · simp only [readdirLoop, hrc, if_true, hm]
          rw [if_neg hfull]
          exact extends_trans (get_inode_extends s e.path) (ih _ _ _)
      | none =>
        simp only [readdirLoop, hrc, if_true, hm]
        exact ih _ _ _
    · simp only [readdirLoop, hrc, if_false]
      exact ih _ _ _

/-- The readdir loop preserves the invariant. -/
theorem readdirLoop_inv (src : FsPath) (r cap : Nat)
    (entries : List DirEntry) :
    ∀ (c : Nat) (buf : List OutEntry) (s : FSState), Inv src s →
      Inv src (readdirLoop r cap entries c buf s).2 := by
  induction entries with
  | nil => intro c buf s h; exact h
  | cons e rest ih =>
    intro c buf s h
    by_cases hrc : r ≤ c
    · cases hm : e.metadata with
      | some m =>
        by_cases hfull : (addEntry buf cap ⟨(get_inode s e.path).1, c + 1,
            entryKind m, e.name⟩).2
        · simp only [readdirLoop, hrc, if_true, hm, hfull, if_pos]
          exact get_inode_inv h e.path
        · simp only [readdirLoop, hrc, if_true, hm]
          rw [if_neg hfull]
          exact ih _ _ _ (get_inode_inv h e.path)
      | none =>
        simp only [readdirLoop, hrc, if_true, hm]
        exact ih _ _ _ h
    · simp only [readdirLoop, hrc, if_false]
      exact ih _ _ _ h

/-- The state readdir returns. -/
theorem readdir_state (fs : RealFS) (s : FSState) (ino r cap : Nat) :
    (readdir fs s ino r cap).2 = s ∨
    ∃ entries, (readdir fs s ino r cap).2 =
      (readdirLoop r cap entries 2 (dotEntries ino r cap) s).2 := by
  cases hp : get_path s ino with
  | none => simp [readdir, hp]
  | some p =>
    cases hd : fs.readDir p with
    | none => simp [readdir, hp, hd]
    | some entries => exact Or.inr ⟨entries, by simp [readdir, hp, hd]⟩

theorem readdir_extends (fs : RealFS) (s : FSState) (ino r cap : Nat) :
    Extends s (readdir fs s ino r cap).2 := by
  rcases readdir_state fs s ino r cap with h | ⟨entries, h⟩ <;> rw [h]
  · exact extends_refl s
  · exact readdirLoop_extends r cap entries 2 _ s

theorem readdir_inv {src : FsPath} {s : FSState} (h : Inv src s)
    (fs : RealFS) (ino r cap : Nat) :
    Inv src (readdir fs s ino r cap).2 := by
  rcases readdir_state fs s ino r cap with heq | ⟨entries, heq⟩ <;> rw [heq]
  · exact h
  · exact readdirLoop_inv src r cap entries 2 _ s h

/-- Every operation only grows the table. -/
theorem step_extends {s t : FSState} (h : Step s t) : Extends s t := by
  cases h with
  | lookupStep fs now s parent name => exact lookup_extends fs now s parent name
  | getattrStep fs now s ino => exact getattr_extends fs now s ino
  | readStep fs s ino offset size seekOk readOk =>
    rw [read_state]; exact extends_refl s
  | readdirStep fs s ino r cap => exact readdir_extends fs s ino r cap
  | openStep s ino flags => exact extends_refl s
  | getInodeStep s p => exact get_inode_extends s p

/-- Every operation preserves the invariant. -/
theorem step_inv {src : FsPath} {s t : FSState} (hInv : Inv src s)
    (h : Step s t) : Inv src t := by
  cases h with
  | lookupStep fs now s parent name => exact lookup_inv hInv fs now parent name
  | getattrStep fs now s ino => exact getattr_inv hInv fs now ino
  | readStep fs s ino offset size seekOk readOk => rw [read_state]; exact hInv
  | readdirStep fs s ino r cap => exact readdir_inv hInv fs ino r cap
  | openStep s ino flags => exact hInv
  | getInodeStep s p => exact get_inode_inv hInv p

/-- The invariant holds in every reachable state. -/
theorem reachable_inv {src : FsPath} {s : FSState}
    (h : Reachable src s) : Inv src s := by
  induction h with
  | init => exact inv_new src
  | step _ hstep ih => exact step_inv ih hstep

/-- What the readdir loop emits: the buffer it started with, followed by
the eligible entries (offset at least r, metadata available) emitted in
order with the table threaded through get_inode, cut off at the remaining
buffer capacity. -/
theorem readdirLoop_fst (r cap : Nat) (entries : List DirEntry) :
    ∀ (c : Nat) (buf : List OutEntry) (s : FSState),
      (readdirLoop r cap entries c buf s).1 =
        buf ++ (emitAll s (eligibleFrom r c entries)).take (cap - buf.length) := by
  induction entries with
  | nil => intro c buf s; simp [readdirLoop, eligibleFrom, emitAll]
  | cons e rest ih =>
    intro c buf s
    by_cases hrc : r ≤ c
    · cases hm : e.metadata with
      | some m =>
        by_cases hlen : buf.length < cap
        · have hfull : (addEntry buf cap ⟨(get_inode s e.path).1, c + 1,
              entryKind m, e.name⟩).2 = false := by
            simp [addEntry, hlen]
          simp only [readdirLoop, hrc, if_true, hm, hfull]
          rw [if_neg (by simp [hfull])]
          have hbuf : (addEntry buf cap ⟨(get_inode s e.path).1, c + 1,
              entryKind m, e.name⟩).1 =
              buf ++ [⟨(get_inode s e.path).1, c + 1, entryKind m, e.name⟩] := by
            simp [addEntry, hlen]
          rw [hbuf, ih]
          simp only [eligibleFrom, hrc, if_true, hm, emitAll]
          have hcap : cap - buf.length = (cap - (buf.length + 1)) + 1 := by
            omega
          rw [hcap, List.take_succ_cons, List.append_assoc]
          simp
        · have hfull : (addEntry buf cap ⟨(get_inode s e.path).1, c + 1,
              entryKind m, e.name⟩).2 = true := by
            simp [addEntry, hlen]
          have hbuf : (addEntry buf cap ⟨(get_inode s e.path).1, c + 1,
              entryKind m, e.name⟩).1 = buf := by
            simp [addEntry, hlen]
          simp only [readdirLoop, hrc, if_true, hm, hfull, if_pos, hbuf]
          have hcap : cap - buf.length = 0 := by omega
          rw [hcap]
          simp
      | none =>
        simp only [readdirLoop, hrc, if_true, hm]
        rw [ih]
        simp only [eligibleFrom, hrc, if_true, hm]
    · simp only [readdirLoop, hrc, if_false]
      rw [ih]
      simp only [eligibleFrom, hrc, if_false]

/-- With room for at least the two synthetic entries, the dot prefix at
resume offset zero is dot then dot-dot. -/
theorem dotEntries_zero (ino cap : Nat) (h : 2 ≤ cap) :
    dotEntries ino 0 cap =
      [⟨ino, 1, FileType.Directory, "."⟩, ⟨ino, 2, FileType.Directory, ".."⟩] := by
  have h0 : (0 : Nat) < cap := by omega
  have h1 : (1 : Nat) < cap := by omega
  simp [dotEntries, addEntry, h0, h1]

/-- The kind chain at a stat result that is not a symlink. -/
theorem attrKind_not_symlink {m : Metadata}
    (h : m.fileType ≠ MetaFileType.symlink) :
    attrKind m ≠ FileType.Symlink ∧
    (attrKind m = FileType.Directory ∨ attrKind m = FileType.RegularFile) := by
  unfold attrKind Metadata.is_dir Metadata.is_file Metadata.is_symlink
  cases hm : m.fileType <;> simp_all

/-- The sample oracle reports no symlink, as fs::metadata never does. -/
theorem sampleFS_follows_links :
    ∀ p m, sampleFS.metadata p = some m →
      m.fileType ≠ MetaFileType.symlink := by
  intro p m h
  simp only [sampleFS] at h
  split at h
  · injection h with h2
    subst h2
    decide
  · exact Option.noConfusion h

/-- C1: in every reachable inode-table state, calling get_inode twice on
the same path returns the same inode both times, the resulting table maps
no other path to that inode number, and its inode-to-path mapping is
injective (the path column is duplicate-free). -/
theorem getInode_twice_stable_injective (source : FsPath) (s : FSState)
    (hs : Reachable source s) (p : FsPath) :
    (get_inode (get_inode s p).2 p).1 = (get_inode s p).1 ∧
    (∀ pr ∈ (get_inode (get_inode s p).2 p).2.inodeMap,
      pr.1 = (get_inode s p).1 → pr.2 = p) ∧
    ((get_inode (get_inode s p).2 p).2.inodeMap.map Prod.snd).Nodup := by
  have hInv : Inv source s := reachable_inv hs
  have h1 : Inv source (get_inode s p).2 := get_inode_inv hInv p
  rw [get_inode_idem]
  refine ⟨rfl, ?_, h1.2.2.1⟩
  intro pr hpr hfst
  have hpr2 : (pr.1, pr.2) ∈ (get_inode s p).2.inodeMap := by simpa using hpr
  rw [hfst] at hpr2
  exact nodup_keys_unique h1.2.1 hpr2 (get_inode_self_mem s p)

/-- Witness for C1: a fresh mount of /src and the path /src/a.txt. -/
theorem getInode_twice_stable_injective_witness :
    (get_inode (get_inode (PassthroughFS.new "/src") "/src/a.txt").2
      "/src/a.txt").1 =
      (get_inode (PassthroughFS.new "/src") "/src/a.txt").1 :=
  (getInode_twice_stable_injective "/src" (PassthroughFS.new "/src")
    Reachable.init "/src/a.txt").1

/-- C7: in every reachable state inode 1 maps to the root path and is
present from construction; inode numbers are duplicate-free and every
non-root entry has an inode in the interval from 2 up to the counter; no
operation evicts an entry or decreases the counter (so an inode is never
reused for a different path); and a fresh allocation hands out exactly the
current counter value and bumps it by one, so numbers are assigned in
strictly increasing order starting at 2. -/
theorem inode_numbering_invariants (source : FsPath) (s : FSState)
    (hs : Reachable source s) :
    ((1, source) ∈ s.inodeMap ∧
      (∀ pr ∈ s.inodeMap, pr.1 = 1 → pr.2 = source) ∧
      (s.inodeMap.map Prod.fst).Nodup ∧
      2 ≤ s.nextInode ∧
      (∀ pr ∈ s.inodeMap, pr.1 = 1 ∨ (2 ≤ pr.1 ∧ pr.1 < s.nextInode))) ∧
    (∀ t, Step s t →
      (∀ pr ∈ s.inodeMap, pr ∈ t.inodeMap) ∧ s.nextInode ≤ t.nextInode) ∧
    (∀ p, findInode s.inodeMap p = none →
      (get_inode s p).1 = s.nextInode ∧
      (get_inode s p).2.nextInode = s.nextInode + 1) := by
  obtain ⟨hroot, hkeys, hpaths, h2, hrange⟩ := reachable_inv hs
  refine ⟨⟨hroot, ?_, hkeys, h2, ?_⟩, ?_, ?_⟩
  · intro pr hpr h1
    rcases hrange pr hpr with ⟨_, hb⟩ | ⟨ha, _⟩
    · exact hb
    · omega
  · intro pr hpr
    rcases hrange pr hpr with ⟨ha, _⟩ | ⟨ha, hb⟩
    · exact Or.inl ha
    · exact Or.inr ⟨ha, hb⟩
  · intro t hstep
    exact step_extends hstep
  · intro p hf
    constructor <;> simp [get_inode, hf]

/-- Witness for C7: the freshly constructed table. -/
theorem inode_numbering_invariants_witness :
    (1, "/src") ∈ (PassthroughFS.new "/src").inodeMap :=
  (inode_numbering_invariants "/src" (PassthroughFS.new "/src")
    Reachable.init).1.1

/-- C3 counterexample: an open request with access flags 1 (O_WRONLY, a
write request) on inode 2 of a fresh mount succeeds with handle 0 instead
of failing with PermissionDenied, refuting the claim as stated. -/
theorem open_write_request_succeeds :
    open_op (PassthroughFS.new "/src") 2 1 =
      (Except.ok (0, 0), PassthroughFS.new "/src") := rfl

/-- C3 amended: open succeeds unconditionally for every inode and every
access-flags argument, replying handle 0 and flags 0 and never returning
PermissionDenied. -/
theorem open_unconditionally_succeeds (s : FSState) (ino : Nat)
    (flags : Int) : open_op s ino flags = (Except.ok (0, 0), s) := rfl

/-- C2 (code bug): the attribute translator copies the full st_mode into
the perm field.  For a regular file of mode 33188 = 0o100644 the record's
perm is 0o100644, whose bits under the S_IFMT mask 0o170000 are the
S_IFREG type bits 0o100000, and which differs from the permission portion
0o644 the claim requires. -/
theorem get_file_attr_perm_keeps_type_bits :
    (get_file_attr sampleFS 0 (PassthroughFS.new "/src") "/src/a.txt").1 =
      Except.ok attrA ∧
    attrA.perm = 0o100644 ∧
    Nat.land 0o100644 0o170000 = 0o100000 ∧
    0o100644 ≠ Nat.land 0o100644 0o7777 := by
  refine ⟨rfl, rfl, by decide, by decide⟩

/-- C4: a read whose inode resolution, open, seek and read all succeed
returns exactly the bytes of the content starting at the offset, at most
size many, that is min size (filesize - offset) bytes; zero bytes when the
offset is at or past the end of the file; and exactly filesize - offset
bytes when the offset is in range but offset + size overshoots. -/
theorem read_returns_exact_slice (fs : RealFS) (s : FSState)
    (ino offset size : Nat) (path : FsPath) (content : List Nat)
    (hpath : get_path s ino = some path)
    (hopen : fs.openFile path = some content) :
    read fs s ino offset size true true =
      (Except.ok ((content.drop offset).take size), s) ∧
    ((content.drop offset).take size).length =
      min size (content.length - offset) ∧
    (content.length ≤ offset → (content.drop offset).take size = []) ∧
    (offset < content.length → content.length ≤ offset + size →
      ((content.drop offset).take size).length = content.length - offset) := by
  refine ⟨?_, ?_, ?_, ?_⟩
  · simp [read, hpath, hopen]
  · simp [List.length_take, List.length_drop]
  · intro h
    have hlen : ((content.drop offset).take size).length = 0 := by
      simp only [List.length_take, List.length_drop]
      omega
    exact List.eq_nil_of_length_eq_zero hlen
  · intro h1 h2
    simp only [List.length_take, List.length_drop]
    omega

/-- Witness for C4: reading 10 bytes of hello from offset 3 returns the
two bytes lo. -/
theorem read_returns_exact_slice_witness :
    read sampleFS stateA 2 3 10 true true =
      (Except.ok [108, 111], stateA) :=
  (read_returns_exact_slice sampleFS stateA 2 3 10 "/src/a.txt"
    [104, 101, 108, 108, 111] rfl rfl).1

/-- C8: read fails with NotFound exactly when the inode is unresolved or
the fresh open fails (the bind of the two oracle lookups is none), fails
with IOError exactly when the open succeeded but the seek or the read
syscall failed, and admits no other error outcome. -/
theorem read_error_taxonomy (fs : RealFS) (s : FSState)
    (ino offset size : Nat) (seekOk readOk : Bool) :
    ((read fs s ino offset size seekOk readOk).1 =
        Except.error FsError.NotFound ↔
      Option.bind (get_path s ino) fs.openFile = none) ∧
    ((read fs s ino offset size seekOk readOk).1 =
        Except.error FsError.IOError ↔
      (Option.bind (get_path s ino) fs.openFile).isSome = true ∧
        (seekOk = false ∨ readOk = false)) ∧
    (∀ e, (read fs s ino offset size seekOk readOk).1 = Except.error e →
      e = FsError.NotFound ∨ e = FsError.IOError) := by
  cases hp : get_path s ino with
  | none => simp [read, hp]
  | some p =>
    cases ho : fs.openFile p with
    | none => simp [read, hp, ho]
    | some c => cases seekOk <;> cases readOk <;> simp [read, hp, ho]

/-- Witness for C8: an unresolved inode yields NotFound. -/
theorem read_error_taxonomy_witness :
    (read sampleFS (PassthroughFS.new "/src") 99 0 10 true true).1 =
      Except.error FsError.NotFound :=
  (read_error_taxonomy sampleFS (PassthroughFS.new "/src") 99 0 10
    true true).1.mpr rfl

/-- C9: whenever lookup, getattr or readdir replies with an error the
inode table is left unchanged, and read never mutates the table at all:
entries are only allocated on success paths, after the underlying stat or
directory read succeeded. -/
theorem error_replies_leave_table_unchanged (fs : RealFS) (now : Nat)
    (s : FSState) (parent luIno rdIno ddIno : Nat) (name : String)
    (offset size r cap : Nat) (seekOk readOk : Bool) :
    (∀ e, (lookup fs now s parent name).1 = Except.error e →
      (lookup fs now s parent name).2 = s) ∧
    (∀ e, (getattr fs now s luIno).1 = Except.error e →
      (getattr fs now s luIno).2 = s) ∧
    (read fs s rdIno offset size seekOk readOk).2 = s ∧
    (∀ e, (readdir fs s ddIno r cap).1 = Except.error e →
      (readdir fs s ddIno r cap).2 = s) := by
  refine ⟨?_, ?_, read_state fs s rdIno offset size seekOk readOk, ?_⟩
  · intro e he
    cases hp : get_path s parent with
    | none => simp [lookup, hp]
    | some pp =>
      cases hr : (get_file_attr fs now s (pathJoin pp name)).1 with
      | ok attr => simp [lookup, hp, hr] at he
      | error e2 =>
        simp only [lookup, hp, hr]
        exact get_file_attr_error_state hr
  · intro e he
    cases hp : get_path s luIno with
    | none => simp [getattr, hp]
    | some p =>
      simp only [getattr, hp] at he ⊢
      exact get_file_attr_error_state he
  · intro e he
    cases hp : get_path s ddIno with
    | none => simp [readdir, hp]
    | some p =>
      cases hd : fs.readDir p with
      | none => simp [readdir, hp, hd]
      | some entries => simp [readdir, hp, hd] at he

/-- Witness for C9: a lookup whose parent inode is unresolved errors and
leaves the fresh table intact. -/
theorem error_replies_leave_table_unchanged_witness :
    (lookup badMetaFS 0 (PassthroughFS.new "/src") 7 "x").2 =
      PassthroughFS.new "/src" :=
  (error_replies_leave_table_unchanged badMetaFS 0 (PassthroughFS.new "/src")
    7 1 1 1 "x" 0 0 0 0 true true).1 FsError.NotFound rfl

/-- C5 counterexample: under badMetaFS the root directory holds the child
x at conceptual offset 2, the resume offset is 0 and the buffer holds ten
entries, yet readdir replies success having emitted only dot and dot-dot:
the remaining entry x was skipped because its metadata call failed, not
because of the resume offset or a full buffer, refuting the claim as
stated. -/
theorem readdir_unstattable_entry_skipped :
    (readdir badMetaFS (PassthroughFS.new "/src") 1 0 10).1 =
      Except.ok [⟨1, 1, FileType.Directory, "."⟩,
        ⟨1, 2, FileType.Directory, ".."⟩] := rfl

/-- C5 amended: on a resolvable inode whose directory read succeeds,
readdir replies success, and after the synthetic dot entries it emits
exactly the real children whose conceptual offset is at least the resume
offset AND whose per-entry metadata call succeeded, in order, each with
the inode resolved or allocated through the inode table and carrying its
successor offset, cut off at the remaining buffer capacity the moment the
buffer is full. -/
theorem readdir_emits_eligible_until_full (fs : RealFS) (s : FSState)
    (ino r cap : Nat) (path : FsPath) (entries : List DirEntry)
    (hpath : get_path s ino = some path)
    (hdir : fs.readDir path = some entries) :
    (readdir fs s ino r cap).1 =
      Except.ok (dotEntries ino r cap ++
        (emitAll s (eligibleFrom r 2 entries)).take
          (cap - (dotEntries ino r cap).length)) := by
  simp only [readdir, hpath, hdir]
  rw [readdirLoop_fst]

/-- Witness for C5: the sample mount at resume offset 0 with room for ten
entries emits dot, dot-dot and a.txt with freshly allocated inode 2. -/
theorem readdir_emits_eligible_until_full_witness :
    (readdir sampleFS (PassthroughFS.new "/src") 1 0 10).1 =
      Except.ok [⟨1, 1, FileType.Directory, "."⟩,
        ⟨1, 2, FileType.Directory, ".."⟩,
        ⟨2, 3, FileType.RegularFile, "a.txt"⟩] :=
  readdir_emits_eligible_until_full sampleFS (PassthroughFS.new "/src")
    1 0 10 "/src" [⟨"a.txt", "/src/a.txt", some regularMode644⟩] rfl rfl

/-- C6: at resume offset zero, with a buffer holding at least two
entries, readdir yields dot at conceptual offset 0 and dot-dot at
conceptual offset 1 (reply offsets 1 and 2) before any real child, and a
directory containing zero real children yields exactly those two
entries. -/
theorem readdir_dot_dotdot_first (fs : RealFS) (s : FSState)
    (ino cap : Nat) (path : FsPath) (entries : List DirEntry)
    (hpath : get_path s ino = some path)
    (hdir : fs.readDir path = some entries)
    (hcap : 2 ≤ cap) :
    (∃ rest, (readdir fs s ino 0 cap).1 =
      Except.ok (⟨ino, 1, FileType.Directory, "."⟩ ::
        ⟨ino, 2, FileType.Directory, ".."⟩ :: rest)) ∧
    (entries = [] → (readdir fs s ino 0 cap).1 =
      Except.ok [⟨ino, 1, FileType.Directory, "."⟩,
        ⟨ino, 2, FileType.Directory, ".."⟩]) := by
  have hkey : (readdir fs s ino 0 cap).1 =
      Except.ok (dotEntries ino 0 cap ++
        (emitAll s (eligibleFrom 0 2 entries)).take
          (cap - (dotEntries ino 0 cap).length)) := by
    simp only [readdir, hpath, hdir]
    rw [readdirLoop_fst]
  rw [dotEntries_zero ino cap hcap] at hkey
  constructor
  · exact ⟨_, by simpa using hkey⟩
  · intro he
    subst he
    simpa [eligibleFrom, emitAll] using hkey

/-- Witness for C6: an empty directory yields exactly dot and dot-dot. -/
theorem readdir_dot_dotdot_first_witness :
    (readdir emptyDirFS (PassthroughFS.new "/src") 1 0 10).1 =
      Except.ok [⟨1, 1, FileType.Directory, "."⟩,
        ⟨1, 2, FileType.Directory, ".."⟩] :=
  (readdir_dot_dotdot_first emptyDirFS (PassthroughFS.new "/src") 1 10
    "/src" [] rfl rfl (by decide)).2 rfl

/-- C10: since the stat performed by the attribute translator is
fs::metadata, which follows symbolic links, its result is never a symlink;
consequently every successful attribute record has kind Directory or
RegularFile and the Symlink branch of the kind chain is unreachable. -/
theorem get_file_attr_kind_never_symlink (fs : RealFS) (now : Nat)
    (s : FSState) (path : FsPath)
    (hfollow : ∀ p m, fs.metadata p = some m →
      m.fileType ≠ MetaFileType.symlink)
    (attr : FileAttr) (s2 : FSState)
    (hok : get_file_attr fs now s path = (Except.ok attr, s2)) :
    attr.kind ≠ FileType.Symlink ∧
    (attr.kind = FileType.Directory ∨ attr.kind = FileType.RegularFile) := by
  cases hm : fs.metadata path with
  | none => simp [get_file_attr, hm] at hok
  | some m =>
    have hns : m.fileType ≠ MetaFileType.symlink := hfollow path m hm
    simp only [get_file_attr, hm, Prod.mk.injEq, Except.ok.injEq] at hok
    obtain ⟨h1, h2⟩ := hok
    subst h1
    exact attrKind_not_symlink hns

/-- Witness for C10: the sample regular file gets kind RegularFile. -/
theorem get_file_attr_kind_never_symlink_witness :
    attrA.kind ≠ FileType.Symlink ∧
    (attrA.kind = FileType.Directory ∨ attrA.kind = FileType.RegularFile) :=
  get_file_attr_kind_never_symlink sampleFS 0 (PassthroughFS.new "/src")
    "/src/a.txt" sampleFS_follows_links attrA stateA rfl

end KriptoFS
